import Mathlib

/-!
Verification development for the objconv disassembler core.

The container templates of containers.h (CMemoryBuffer::Get,
CArrayBuf::operator[], CSList with Sort / FindFirst / PushUnique) are
embedded as Lean functions on lists; the record types SARelocation,
SFunctionRecord, SASymbol and SATracer with their inline member functions
come from disasm.h.  Parts of the disassembler whose implementation lives
in disasm.cpp (which is not part of this source tree) are modelled from
the specification and are marked as such in their doc comments.
-/

namespace Objconv

/-! ## Containers (containers.h) -/

/-- CMemoryBuffer: dynamic byte buffer.  Only the fields needed by
template member Get are modelled: the allocated bytes (as a total
function on offsets) and DataSize. -/
structure CMemoryBuffer where
  buffer : Nat → Nat
  DataSize : Nat

/-- CMemoryBuffer::Get (containers.h lines 104-106): if the offset is at
or past DataSize, submit error 2016 and substitute offset 0; return the
object at the (possibly substituted) offset.  The Bool records whether
the error was submitted. -/
def CMemoryBuffer.Get (m : CMemoryBuffer) (Offset : Nat) : Nat × Bool :=
  if Offset ≥ m.DataSize then (m.buffer 0, true) else (m.buffer Offset, false)

/-- CArrayBuf::operator[] (containers.h lines 203-208): if the index is
out of range, submit error 9003, substitute index 0 and return that
record.  The Bool records whether the error was submitted.  An access to
an empty array reads unallocated memory in the C++ source; this is
modelled by the Inhabited default. -/
def CArrayBuf.opIndex [Inhabited α] (l : List α) (i : Nat) : α × Bool :=
  if i ≥ l.length then (l.getD 0 default, true) else (l.getD i default, false)

/-- CSList::operator[] (containers.h lines 281-286): same checked access
as CArrayBuf::operator[]. -/
def CSList.opIndex [Inhabited α] (l : List α) (i : Nat) : α × Bool :=
  if i ≥ l.length then (l.getD 0 default, true) else (l.getD i default, false)

/-- Inner loop of CSList::Sort (containers.h lines 294-301): one bubble
pass of a bounded number of adjacent compare-and-swap steps.  The first
argument is the number of iterations of the j loop; each step compares
the records at positions j and j+1 and swaps them when the second is
less than the first. -/
def innerLoop (lt : α → α → Bool) : Nat → List α → List α
  | 0, l => l
  | _ + 1, [] => []
  | _ + 1, [a] => [a]
  | m + 1, a :: b :: rest =>
    if lt b a then b :: innerLoop lt m (a :: rest)
    else a :: innerLoop lt m (b :: rest)

/-- Outer loop of CSList::Sort (containers.h lines 293-302): the i-th
iteration (i = 0, 1, ...) runs the inner loop with NumEntries - i - 1
compare-and-swap steps.  The counter here is NumEntries - i - 1, so it
starts at NumEntries - 1 and counts down to 0. -/
def sortLoop (lt : α → α → Bool) : Nat → List α → List α
  | 0, l => l
  | k + 1, l => sortLoop lt k (innerLoop lt k l)

/-- CSList::Sort (containers.h lines 287-303): bubble sort in ascending
order by the record comparison operator. -/
def CSList.Sort (lt : α → α → Bool) (l : List α) : List α :=
  sortLoop lt l.length l

/-- Binary search loop of CSList::FindFirst (containers.h lines
310-321): while a < b, set c = (a + b) / 2 and narrow the interval to
[c+1, b) when list[c] < x, to [a, c) otherwise.  The C++ while loop is
embedded with a fuel argument; fuel b - a is always sufficient because
each iteration strictly shrinks the interval. -/
def FindFirstAux [Inhabited α] (lt : α → α → Bool) (l : List α) (x : α) :
    Nat → Nat → Nat → Nat
  | 0, a, _ => a
  | fuel + 1, a, b =>
    if a < b then
      let c := (a + b) / 2
      if lt (CSList.opIndex l c).1 x then FindFirstAux lt l x fuel (c + 1) b
      else FindFirstAux lt l x fuel a c
    else a

/-- CSList::FindFirst (containers.h lines 304-322): returns the index of
the first record not less than x in a sorted list, NumEntries if x is
bigger than all entries. -/
def CSList.FindFirst [Inhabited α] (lt : α → α → Bool) (l : List α) (x : α) : Nat :=
  FindFirstAux lt l x l.length 0 l.length

/-- CSList::PushUnique (containers.h lines 350-376): find the insertion
point with FindFirst; if a record equal to x (neither less than the
other) is already there, return its index and leave the list unchanged;
otherwise move the subsequent records up one place and insert x at the
insertion point.  Returns the index and the resulting list. -/
def CSList.PushUnique [Inhabited α] (lt : α → α → Bool) (l : List α) (x : α) :
    Nat × List α :=
  let i := CSList.FindFirst lt l x
  if i < l.length then
    if lt x (CSList.opIndex l i).1 then (i, l.take i ++ x :: l.drop i)
    else (i, l)
  else (i, l.take i ++ x :: l.drop i)

/-! ## Record types of the disassembler stores (disasm.h) -/

/-- SARelocation (disasm.h lines 505-526): relocation or
cross-reference record.  int32_t fields are embedded as Int, uint32_t
fields as Nat. -/
structure SARelocation where
  Section : Int
  Offset : Nat
  Typ : Nat
  Size : Nat
  Addend : Int
  TargetOldIndex : Nat
  RefOldIndex : Nat

instance : Inhabited SARelocation := ⟨⟨0, 0, 0, 0, 0, 0, 0⟩⟩

/-- SARelocation::operator< (disasm.h lines 524-525): sort relocation
table by source address. -/
def SARelocation.ltB (a y : SARelocation) : Bool :=
  decide (a.Section < y.Section) ||
    (decide (a.Section = y.Section) && decide (a.Offset < y.Offset))

/-- SFunctionRecord (disasm.h lines 529-538): where a function begins
and ends. -/
structure SFunctionRecord where
  Section : Int
  Start : Nat
  End_ : Nat
  Scope : Nat
  OldSymbolIndex : Nat

instance : Inhabited SFunctionRecord := ⟨⟨0, 0, 0, 0, 0⟩⟩

/-- SFunctionRecord::operator< (disasm.h lines 536-537): sort function
table by source address. -/
def SFunctionRecord.ltB (a y : SFunctionRecord) : Bool :=
  decide (a.Section < y.Section) ||
    (decide (a.Section = y.Section) && decide (a.Start < y.Start))

/-- SASymbol (disasm.h lines 541-554): symbol record. -/
structure SASymbol where
  Section : Int
  Offset : Nat
  Size : Nat
  Typ : Nat
  Name : Nat
  DLLName : Nat
  Scope : Nat
  OldIndex : Nat

instance : Inhabited SASymbol := ⟨⟨0, 0, 0, 0, 0, 0, 0, 0⟩⟩

/-- SASymbol::operator< (disasm.h lines 552-553): sort symbol table by
address. -/
def SASymbol.ltB (a y : SASymbol) : Bool :=
  decide (a.Section < y.Section) ||
    (decide (a.Section = y.Section) && decide (a.Offset < y.Offset))

/-- Strict lexicographic order on pairs, written from the words of the
specification: (s1, o1) is lexicographically less than (s2, o2) when
s1 < s2, or s1 = s2 and o1 < o2.  Used to compare the source operators
against the specified sort keys. -/
def lexLt (p q : Int × Nat) : Prop :=
  p.1 < q.1 ∨ (p.1 = q.1 ∧ p.2 < q.2)

/-! ## Tracer (disasm.h lines 479-485) -/

/-- SATracer (disasm.h lines 479-485): 16 general purpose register
slots; Regist i defines the type of information contained in register
i, Value i has a meaning depending on Regist i. -/
structure SATracer where
  Regist : Fin 16 → Nat
  Value : Fin 16 → Nat

/-- SATracer::Reset (disasm.h lines 482-484): the two uint64_t stores
zero exactly the 16 bytes of Regist; Value is not written. -/
def SATracer.Reset (t : SATracer) : SATracer :=
  { t with Regist := fun _ => 0 }

/-- Observable content of one tracer slot. -/
inductive SlotInfo where
  | unknown
  | known (kind : Nat) (value : Nat)
deriving DecidableEq

/-- Modelled from the spec: reading a tracer slot.  The spec lists the
slot kinds as unknown or one of the known kinds, and disasm.h states
that the meaning of Value i depends on Regist i; kind 0 is the unknown
state, in which Value carries no information.  The reader UpdateTracer
lives in disasm.cpp, which is not in this source tree. -/
def SATracer.readSlot (t : SATracer) (i : Fin 16) : SlotInfo :=
  if t.Regist i = 0 then SlotInfo.unknown else SlotInfo.known (t.Regist i) (t.Value i)

/-! ## Pseudo-section constants (disasm.h lines 836-843) -/

/-- ASM_SEGMENT_UNKNOWN (disasm.h line 836). -/
def ASM_SEGMENT_UNKNOWN : Int := 0

/-- ASM_SEGMENT_ABSOLUTE (disasm.h line 837). -/
def ASM_SEGMENT_ABSOLUTE : Int := -1

/-- ASM_SEGMENT_FLAT (disasm.h line 838). -/
def ASM_SEGMENT_FLAT : Int := -2

/-- ASM_SEGMENT_NOTHING (disasm.h line 839). -/
def ASM_SEGMENT_NOTHING : Int := -3

/-- ASM_SEGMENT_ERROR (disasm.h line 840). -/
def ASM_SEGMENT_ERROR : Int := -4

/-- ASM_SEGMENT_IMGREL (disasm.h line 841). -/
def ASM_SEGMENT_IMGREL : Int := -16

/-- Modelled from the spec: the set of section/segment/group values
accepted at the public interface (the consumer WriteSectionName lives in
disasm.cpp, not in this source tree).  Per disasm.h lines 836-843, the
accepted values are exactly the six named constants together with every
value greater than 0, which denotes a defined section, segment or
group. -/
def validSegmentValue (v : Int) : Bool :=
  decide (v > 0) || v == ASM_SEGMENT_UNKNOWN || v == ASM_SEGMENT_ABSOLUTE ||
    v == ASM_SEGMENT_FLAT || v == ASM_SEGMENT_NOTHING ||
    v == ASM_SEGMENT_ERROR || v == ASM_SEGMENT_IMGREL

/-! ## Decoder step and pass-1 walk (modelled from the spec) -/

/-- Bytes that the prefix scan classifies as one-byte prefixes, from the
category list at disasm.h lines 456-465: segment prefixes 26, 2E, 36,
3E, 64, 65; operand size 66; address size 67; lock F0; repeat F2, F3. -/
def isPrefixByte (b : Nat) : Bool :=
  b == 0x26 || b == 0x2E || b == 0x36 || b == 0x3E || b == 0x64 || b == 0x65 ||
    b == 0x66 || b == 0x67 || b == 0xF0 || b == 0xF2 || b == 0xF3

/-- Modelled from the spec: the prefix scan of the decode pipeline
consumes bytes while each is classifiable as a prefix (ScanPrefixes is
implemented in disasm.cpp, which is not in this source tree).  Returns
the number of prefix bytes at the front of the remaining section
bytes. -/
def scanPrefixes : List Nat → Nat
  | [] => 0
  | b :: rest => if isPrefixByte b then scanPrefixes rest + 1 else 0

/-- Result of one decode step: a terminal decode error code, or the byte
length of the decoded instruction. -/
inductive DecodeResult where
  | error (code : Nat)
  | instr (len : Nat)
deriving DecidableEq

/-- Modelled from the spec: ParseInstruction, the single-instruction
decode step (implemented in disasm.cpp, which is not in this source
tree).  At or past the section end it reports a terminal decode error;
otherwise it scans prefixes and consumes at least one opcode byte, so a
decoded instruction is at least one byte long; when the prefixes run to
the section end the instruction is truncated, a terminal decode
error. -/
def ParseInstruction (sec : List Nat) (pos : Nat) : DecodeResult :=
  let rest := sec.drop pos
  if rest.isEmpty then DecodeResult.error 1
  else
    let p := scanPrefixes rest
    if p < rest.length then DecodeResult.instr (p + 1)
    else DecodeResult.error 2

/-- Modelled from the spec: NextInstruction1 advances the instruction
cursor past the instruction decoded by ParseInstruction, or stops at a
terminal decode error (implemented in disasm.cpp, which is not in this
source tree). -/
def NextInstruction1 (sec : List Nat) (pos : Nat) : Option Nat :=
  match ParseInstruction sec pos with
  | DecodeResult.error _ => none
  | DecodeResult.instr len => some (pos + len)

/-- Modelled from the spec: the pass-1 walk over one section repeatedly
takes decode steps from the current cursor until a terminal decode error
or the section end.  The C++ loop is embedded with a fuel argument;
returns the list of instruction start offsets, or none when the fuel ran
out before the walk finished. -/
def Pass1WalkAux (sec : List Nat) : Nat → Nat → Option (List Nat)
  | 0, pos =>
    match NextInstruction1 sec pos with
    | none => some []
    | some _ => none
  | f + 1, pos =>
    match NextInstruction1 sec pos with
    | none => some []
    | some next => (Pass1WalkAux sec f next).map (fun l => pos :: l)

/-- Modelled from the spec: the pass-1 walk of a whole section starting
at offset 0, with fuel equal to the section size. -/
def Pass1Walk (sec : List Nat) : Option (List Nat) :=
  Pass1WalkAux sec sec.length 0

/-! ## Symbol table old-to-new index translation (modelled from the spec) -/

/-- Pair each list element with its position, counting from n. -/
def withIdx : List α → Nat → List (α × Nat)
  | [], _ => []
  | a :: l, n => (a, n) :: withIdx l (n + 1)

/-- Modelled from the spec: CSymbolTable::UpdateIndex rebuilds
TranslateOldIndex, the dense table translating old symbol indices to new
ones (implemented in disasm.cpp, which is not in this source tree).  The
table has one slot per old index below OldNum; walking the sorted symbol
list, every symbol carrying a nonzero old index writes its position into
the slot of that old index. -/
def buildTranslate (syms : List (SASymbol × Nat)) (tab : List Nat) : List Nat :=
  match syms with
  | [] => tab
  | (s, i) :: rest =>
    buildTranslate rest (if s.OldIndex ≠ 0 then tab.set s.OldIndex i else tab)

/-- State of CSymbolTable relevant to index translation: the sorted
symbol list (member List in disasm.h line 579, renamed here because List
is the Lean list type) and OldNum = 1 + the highest old symbol
index. -/
structure CSymbolTable where
  SymbolList : List SASymbol
  OldNum : Nat

/-- CSymbolTable::GetLimit (disasm.h line 576): highest old symbol
number + 1. -/
def CSymbolTable.GetLimit (st : CSymbolTable) : Nat := st.OldNum

/-- Modelled from the spec: the TranslateOldIndex table of a symbol
table, rebuilt by UpdateIndex. -/
def CSymbolTable.translate (st : CSymbolTable) : List Nat :=
  buildTranslate (withIdx st.SymbolList 0) (List.replicate st.OldNum 0)

/-- Modelled from the spec: CSymbolTable::Old2NewIndex translates an old
symbol index to the new index by looking it up in TranslateOldIndex
(implemented in disasm.cpp, which is not in this source tree). -/
def CSymbolTable.Old2NewIndex (st : CSymbolTable) (OldIndex : Nat) : Nat :=
  (st.translate).getD OldIndex 0

/-! ## Pass-2 emitter (modelled from the spec) -/

/-- SASection (disasm.h lines 488-502): section record; the raw bytes
are embedded as a list. -/
structure SASection where
  Start : List Nat
  SectionAddress : Nat
  InitSize : Nat
  TotalSize : Nat
  Typ : Nat
  Align : Nat
  WordSize : Nat
  Name : Nat
  Group : Int

/-- The disassembler state after pass 1 that pass 2 works on: the
analyzed tables and the dialect selection, together with the pass-1
scratch members of CDisassembler (tracer, per-instruction opcode
scratch, pass counter) that pass 2 reinitializes per instruction and
must not depend on. -/
structure AnalyzedState where
  Sections : List SASection
  Symbols : List SASymbol
  Relocations : List SARelocation
  FunctionList : List SFunctionRecord
  Dialect : Nat
  tracer : SATracer
  opScratch : Nat
  passCounter : Nat

/-- Modelled from the spec: pass-2 emission of the instructions of one
section: walk the decode steps as in pass 1 and write one token per
instruction (carrying the dialect and the instruction length) or a
diagnostic comment token for a terminal decode error, which never aborts
the pass. -/
def emitCode (dialect : Nat) (bytes : List Nat) : Nat → Nat → List Nat
  | 0, _ => []
  | f + 1, pos =>
    match ParseInstruction bytes pos with
    | DecodeResult.error e => [900 + e]
    | DecodeResult.instr len => (1000 * dialect + len) :: emitCode dialect bytes f (pos + len)

/-- Modelled from the spec: pass-2 emission of one section: a
dialect-specific segment header naming the section, the labels of the
symbols and the extents of the functions that pass 1 placed in this
section, the instruction tokens, and a dialect-specific segment end. -/
def emitSection (dialect : Nat) (syms : List SASymbol) (rels : List SARelocation)
    (funcs : List SFunctionRecord) (secIdx : Int) (sec : SASection) : List Nat :=
  [2000 + dialect, sec.Name] ++
    (syms.filter (fun s => s.Section == secIdx)).map (fun s => 4000 + s.Name) ++
    (funcs.filter (fun f => f.Section == secIdx)).map (fun f => 5000 + f.Start) ++
    (rels.filter (fun r => r.Section == secIdx)).map (fun r => 6000 + r.Offset) ++
    emitCode dialect sec.Start sec.Start.length 0 ++ [3000 + dialect]

/-- Modelled from the spec: CDisassembler::Pass2 walks the sections in
order and writes the output buffer; it reads only the analyzed tables
and the dialect, reinitializes the per-instruction scratch for every
instruction, and additionally marks emitted symbols with the written
flag 0x100 in their scope (Pass2 is implemented in disasm.cpp, which is
not in this source tree).  Returns the output buffer and the state after
the run. -/
def Pass2Run (st : AnalyzedState) : List Nat × AnalyzedState :=
  let out := (withIdx st.Sections 1).foldr
    (fun p acc =>
      emitSection st.Dialect st.Symbols st.Relocations st.FunctionList
        (Int.ofNat p.2) p.1 ++ acc) []
  (out,
    { st with
      Symbols := st.Symbols.map (fun s => { s with Scope := s.Scope ||| 0x100 })
      tracer := ⟨fun _ => 0, fun _ => 0⟩
      opScratch := 0 })

/-! ## Concrete instances used by witnesses and counterexamples -/

/-- A strict total order on Fin 3, used to instantiate the generic
container theorems in witnesses. -/
def f3lt (a b : Fin 3) : Bool := decide (a.val < b.val)

/-- A comparison on Fin 3 that is not negatively transitive: 0 < 1 and
1 < 2 hold, every other comparison (in particular 0 < 2) fails. -/
def cexLt (a b : Fin 3) : Bool :=
  decide ((a.val = 0 ∧ b.val = 1) ∨ (a.val = 1 ∧ b.val = 2))

/-- A code section of three bytes: nop; operand-size prefix + nop. -/
def exSection : SASection := ⟨[0x90, 0x66, 0x90], 0, 3, 3, 1, 0, 64, 7, 0⟩

/-- An analyzed state with nonzero pass-1 scratch contents. -/
def exState1 : AnalyzedState :=
  ⟨[exSection], [⟨1, 0, 0, 0, 11, 0, 4, 1⟩], [], [⟨1, 0, 3, 4, 1⟩], 1,
    ⟨fun _ => 3, fun _ => 9⟩, 42, 3⟩

/-- The same analyzed tables and dialect as exState1 with different
pass-1 scratch contents. -/
def exState2 : AnalyzedState :=
  ⟨[exSection], [⟨1, 0, 0, 0, 11, 0, 4, 1⟩], [], [⟨1, 0, 3, 4, 1⟩], 1,
    ⟨fun _ => 0, fun _ => 0⟩, 0, 1⟩

/-- A symbol with the given section, offset and old index, all other
fields zero. -/
def exSym (sec : Int) (off : Nat) (old : Nat) : SASymbol :=
  ⟨sec, off, 0, 0, 0, 0, 0, old⟩

/-- A finalized symbol table: three symbols sorted by (section, offset),
old indices 2, 0, 1, OldNum = 3. -/
def exSymTab : CSymbolTable := ⟨[exSym 1 0 2, exSym 1 4 0, exSym 2 0 1], 3⟩

/-! ## Theorems -/

/-- The prefix scan never counts more bytes than remain. -/
lemma scanPrefixes_le_length (l : List Nat) : scanPrefixes l ≤ l.length := by
  induction l with
  | nil => simp [scanPrefixes]
  | cons b rest ih =>
    simp only [scanPrefixes, List.length_cons]
    split <;> omega

/-- Case analysis of one decode step: past the end it is the terminal
error 1; with at least one non-prefix byte it is an instruction of
length at least 1 that fits in the section; with prefixes running to the
section end it is the terminal truncation error 2. -/
lemma parseInstruction_cases (sec : List Nat) (pos : Nat) :
    (sec.length ≤ pos ∧ ParseInstruction sec pos = DecodeResult.error 1) ∨
    (∃ len, 1 ≤ len ∧ pos + len ≤ sec.length ∧
      ParseInstruction sec pos = DecodeResult.instr len) ∨
    (pos < sec.length ∧ ParseInstruction sec pos = DecodeResult.error 2) := by
  have hlen : (sec.drop pos).length = sec.length - pos := List.length_drop pos sec
  by_cases he : (sec.drop pos).isEmpty
  · left
    refine ⟨?_, by unfold ParseInstruction; rw [if_pos he]⟩
    have hd : sec.drop pos = [] := List.isEmpty_iff.mp he
    exact List.drop_eq_nil_iff.mp hd
  · have hne : sec.drop pos ≠ [] := fun hh => he (List.isEmpty_iff.mpr hh)
    have hpos : pos < sec.length := by
      have : 0 < (sec.drop pos).length := List.length_pos.mpr hne
      omega
    by_cases hp : scanPrefixes (sec.drop pos) < (sec.drop pos).length
    · right; left
      refine ⟨scanPrefixes (sec.drop pos) + 1, by omega, by omega, ?_⟩
      unfold ParseInstruction
      rw [if_neg he, if_pos hp]
    · right; right
      refine ⟨hpos, ?_⟩
      unfold ParseInstruction
      rw [if_neg he, if_neg hp]

/-- When the decode step succeeds, the new cursor lies strictly beyond
the old one and within the section. -/
lemma nextInstruction1_some_bounds {sec : List Nat} {pos next : Nat}
    (h : NextInstruction1 sec pos = some next) :
    pos + 1 ≤ next ∧ next ≤ sec.length := by
  rcases parseInstruction_cases sec pos with ⟨_, hp⟩ | ⟨len, h1, h2, hp⟩ | ⟨_, hp⟩ <;>
    simp [NextInstruction1, hp] at h
  omega

/-- Fuel of the size of the remaining section suffices for the pass-1
walk. -/
lemma pass1WalkAux_isSome (sec : List Nat) :
    ∀ fuel pos, sec.length - pos ≤ fuel → (Pass1WalkAux sec fuel pos).isSome = true := by
  intro fuel
  induction fuel with
  | zero =>
    intro pos hle
    have hend : sec.length ≤ pos := by omega
    have hpe : ParseInstruction sec pos = DecodeResult.error 1 := by
      rcases parseInstruction_cases sec pos with ⟨_, hp⟩ | ⟨len, _, h2, hp⟩ | ⟨hlt, hp⟩
      · exact hp
      · omega
      · omega
    simp [Pass1WalkAux, NextInstruction1, hpe]
  | succ f ih =>
    intro pos hle
    cases hn : NextInstruction1 sec pos with
    | none => simp [Pass1WalkAux, hn]
    | some next =>
      have hb := nextInstruction1_some_bounds hn
      have hf : sec.length - next ≤ f := by omega
      simpa [Pass1WalkAux, hn, Option.isSome_map] using ih next hf

/-- C1: for every byte sequence and starting offset, one decode step
(NextInstruction1 / ParseInstruction) either reports a terminal decode
error or advances the instruction cursor by at least one byte, and the
pass-1 walk of a whole section finishes within fuel equal to the section
size, so it terminates on every input section. -/
theorem decode_step_progress_and_pass1_terminates :
    ∀ (sec : List Nat) (pos : Nat),
      ((∃ e, ParseInstruction sec pos = DecodeResult.error e ∧
          NextInstruction1 sec pos = none) ∨
        (∃ len, 1 ≤ len ∧ ParseInstruction sec pos = DecodeResult.instr len ∧
          NextInstruction1 sec pos = some (pos + len))) ∧
      (Pass1Walk sec).isSome = true := by
  intro sec pos
  constructor
  · rcases parseInstruction_cases sec pos with ⟨_, hp⟩ | ⟨len, h1, _, hp⟩ | ⟨_, hp⟩
    · exact Or.inl ⟨1, hp, by simp [NextInstruction1, hp]⟩
    · exact Or.inr ⟨len, h1, hp, by simp [NextInstruction1, hp]⟩
    · exact Or.inl ⟨2, hp, by simp [NextInstruction1, hp]⟩
  · exact pass1WalkAux_isSome sec sec.length 0 (by omega)

/-- Decomposing membership in an indexed list: every member is an
element of the underlying list paired with its position. -/
lemma withIdx_mem_elim : ∀ {l : List α} {n : Nat} {q : α × Nat}, q ∈ withIdx l n →
    ∃ k, ∃ hk : k < l.length, q.1 = l.get ⟨k, hk⟩ ∧ q.2 = n + k := by
  intro l
  induction l with
  | nil => intro n q hq; simp [withIdx] at hq
  | cons a t ih =>
    intro n q hq
    simp only [withIdx, List.mem_cons] at hq
    rcases hq with hq | hq
    · exact ⟨0, by simp, by simp [hq]⟩
    · obtain ⟨k, hk, h1, h2⟩ := ih hq
      exact ⟨k + 1, by simpa using hk, by simpa using h1, by omega⟩

/-- Every element of a list appears in its indexed form, paired with
its position. -/
lemma withIdx_mem_intro : ∀ (l : List α) (n k : Nat) (hk : k < l.length),
    (l.get ⟨k, hk⟩, n + k) ∈ withIdx l n := by
  intro l
  induction l with
  | nil => intro n k hk; simp at hk
  | cons a t ih =>
    intro n k hk
    match k with
    | 0 => simp [withIdx]
    | k + 1 =>
      have hk2 : k < t.length := by simpa using hk
      have := ih (n + 1) k hk2
      simp only [withIdx, List.mem_cons]
      right
      have harith : n + (k + 1) = n + 1 + k := by omega
      rw [harith]
      exact this

/-- buildTranslate never changes the length of the table. -/
lemma buildTranslate_length : ∀ (ps : List (SASymbol × Nat)) (tab : List Nat),
    (buildTranslate ps tab).length = tab.length := by
  intro ps
  induction ps with
  | nil => intro tab; rfl
  | cons q rest ih =>
    intro tab
    obtain ⟨s, i⟩ := q
    simp only [buildTranslate]
    rw [ih]
    split <;> simp

/-- Every entry of the built table is either an initial entry or the
position of some processed symbol. -/
lemma buildTranslate_bound : ∀ (ps : List (SASymbol × Nat)) (tab : List Nat) (N : Nat),
    (∀ v ∈ tab, v < N) → (∀ q ∈ ps, q.2 < N) → ∀ v ∈ buildTranslate ps tab, v < N := by
  intro ps
  induction ps with
  | nil => intro tab N htab _ v hv; exact htab v hv
  | cons q rest ih =>
    intro tab N htab hps v hv
    obtain ⟨s, i⟩ := q
    simp only [buildTranslate] at hv
    refine ih _ N ?_ (fun q hq => hps q (List.mem_cons_of_mem _ hq)) v hv
    intro w hw
    by_cases h0 : s.OldIndex ≠ 0
    · rw [if_pos h0] at hw
      rcases List.mem_or_eq_of_mem_set hw with h | h
      · exact htab w h
      · exact h ▸ hps (s, i) (List.mem_cons_self _ _)
    · rw [if_neg h0] at hw
      exact htab w hw

/-- A table slot no processed symbol writes to keeps its value. -/
lemma buildTranslate_getD_untouched : ∀ (ps : List (SASymbol × Nat)) (tab : List Nat) (o : Nat),
    (∀ q ∈ ps, q.1.OldIndex ≠ o) → (buildTranslate ps tab).getD o 0 = tab.getD o 0 := by
  intro ps
  induction ps with
  | nil => intro tab o _; rfl
  | cons q rest ih =>
    intro tab o hno
    obtain ⟨s, i⟩ := q
    simp only [buildTranslate]
    rw [ih _ o (fun q hq => hno q (List.mem_cons_of_mem _ hq))]
    by_cases h0 : s.OldIndex ≠ 0
    · rw [if_pos h0]
      have hne : s.OldIndex ≠ o := hno (s, i) (List.mem_cons_self _ _)
      by_cases hlt : o < tab.length
      · rw [List.getD_eq_getElem _ _ (by simpa using hlt), List.getD_eq_getElem _ _ hlt]
        exact List.getElem_set_ne hne _
      · rw [List.getD_eq_default _ _ (by simpa using Nat.le_of_not_lt hlt),
          List.getD_eq_default _ _ (Nat.le_of_not_lt hlt)]
    · rw [if_neg h0]

/-- When every processed symbol carrying old index o sits at position i
and at least one such symbol is processed, the built table maps o to
i. -/
lemma buildTranslate_getD_writer : ∀ (ps : List (SASymbol × Nat)) (tab : List Nat) (o i : Nat),
    o ≠ 0 → o < tab.length →
    (∃ q ∈ ps, q.1.OldIndex = o) → (∀ q ∈ ps, q.1.OldIndex = o → q.2 = i) →
    (buildTranslate ps tab).getD o 0 = i := by
  intro ps
  induction ps with
  | nil =>
    intro tab o i _ _ hex _
    simp at hex
  | cons q rest ih =>
    intro tab o i ho hlt hex hall
    obtain ⟨s, j⟩ := q
    simp only [buildTranslate]
    by_cases hs : s.OldIndex = o
    · have hj : j = i := hall (s, j) (List.mem_cons_self _ _) hs
      subst hj
      have hw : (if s.OldIndex ≠ 0 then tab.set s.OldIndex j else tab) = tab.set o j := by
        rw [if_pos (by rw [hs]; exact ho), hs]
      rw [hw]
      by_cases hrest : ∃ q ∈ rest, q.1.OldIndex = o
      · exact ih _ o j ho (by simpa using hlt) hrest
          (fun q hq hqo => hall q (List.mem_cons_of_mem _ hq) hqo)
      · push_neg at hrest
        rw [buildTranslate_getD_untouched rest _ o hrest,
          List.getD_eq_getElem _ _ (by simpa using hlt)]
        exact List.getElem_set_self _
    · have hex2 : ∃ q ∈ rest, q.1.OldIndex = o := by
        rcases hex with ⟨q, hq, hqo⟩
        rcases List.mem_cons.mp hq with rfl | hq2
        · exact absurd hqo hs
        · exact ⟨q, hq2, hqo⟩
      have hlen : o < (if s.OldIndex ≠ 0 then tab.set s.OldIndex j else tab).length := by
        split <;> simpa using hlt
      exact ih _ o i ho hlen hex2 (fun q hq hqo => hall q (List.mem_cons_of_mem _ hq) hqo)

/-- C2: after finalize, Old2NewIndex is total on [0, GetLimit()): every
old index strictly below the limit is mapped to a valid new index into
the symbol list; translating the nonzero old index of the symbol at any
new index returns that new index, and hence the map from new index back
to old index, restricted to symbols carrying a nonzero old index, is
injective. -/
theorem old2new_total_and_injective (st : CSymbolTable)
    (h0 : 0 < st.SymbolList.length)
    (hw : ∀ s ∈ st.SymbolList, s.OldIndex < st.OldNum)
    (hdup : st.SymbolList.Pairwise
      (fun s t => s.OldIndex ≠ 0 → t.OldIndex ≠ 0 → s.OldIndex ≠ t.OldIndex)) :
    (∀ old, old < st.GetLimit → st.Old2NewIndex old < st.SymbolList.length) ∧
    (∀ i, ∀ hi : i < st.SymbolList.length,
      (st.SymbolList.get ⟨i, hi⟩).OldIndex ≠ 0 →
      st.Old2NewIndex (st.SymbolList.get ⟨i, hi⟩).OldIndex = i) ∧
    (∀ i j, ∀ hi : i < st.SymbolList.length, ∀ hj : j < st.SymbolList.length,
      (st.SymbolList.get ⟨i, hi⟩).OldIndex ≠ 0 →
      (st.SymbolList.get ⟨j, hj⟩).OldIndex ≠ 0 →
      (st.SymbolList.get ⟨i, hi⟩).OldIndex = (st.SymbolList.get ⟨j, hj⟩).OldIndex →
      i = j) := by
  have hidx : ∀ i j, ∀ hi : i < st.SymbolList.length, ∀ hj : j < st.SymbolList.length,
      (st.SymbolList.get ⟨i, hi⟩).OldIndex ≠ 0 →
      (st.SymbolList.get ⟨j, hj⟩).OldIndex ≠ 0 →
      (st.SymbolList.get ⟨i, hi⟩).OldIndex = (st.SymbolList.get ⟨j, hj⟩).OldIndex →
      i = j := by
    have hpw := List.pairwise_iff_getElem.mp hdup
    intro i j hi hj hni hnj heq
    rcases Nat.lt_trichotomy i j with hlt | rfl | hgt
    · exact absurd heq (hpw i j hi hj hlt hni hnj)
    · rfl
    · exact absurd heq.symm (hpw j i hj hi hgt hnj hni)
  have hlen : st.translate.length = st.OldNum := by
    unfold CSymbolTable.translate
    rw [buildTranslate_length]
    simp
  have hround : ∀ i, ∀ hi : i < st.SymbolList.length,
      (st.SymbolList.get ⟨i, hi⟩).OldIndex ≠ 0 →
      st.Old2NewIndex (st.SymbolList.get ⟨i, hi⟩).OldIndex = i := by
    intro i hi hni
    unfold CSymbolTable.Old2NewIndex CSymbolTable.translate
    refine buildTranslate_getD_writer _ _ _ i hni ?_ ?_ ?_
    · have := hw _ (st.SymbolList.get_mem i hi)
      simpa using this
    · have hm := withIdx_mem_intro st.SymbolList 0 i hi
      exact ⟨_, by simpa using hm, rfl⟩
    · intro q hq hqo
      obtain ⟨k, hk, h1, h2⟩ := withIdx_mem_elim hq
      have hkeq : k = i := by
        refine hidx k i hk hi ?_ hni ?_
        · rw [← h1]; rw [hqo]; exact hni
        · rw [← h1]; exact hqo
      omega
  refine ⟨?_, hround, hidx⟩
  intro old hold
  have holdlen : old < st.translate.length := by rw [hlen]; exact hold
  unfold CSymbolTable.Old2NewIndex
  rw [List.getD_eq_getElem _ _ holdlen]
  refine buildTranslate_bound _ _ _ ?_ ?_ _ (List.getElem_mem holdlen)
  · intro v hv
    have := List.eq_of_mem_replicate hv
    omega
  · intro q hq
    obtain ⟨k, hk, _, h2⟩ := withIdx_mem_elim hq
    omega

/-- Witness for C2 on a concrete finalized three-symbol table. -/
theorem old2new_total_and_injective_witness :
    exSymTab.Old2NewIndex (exSymTab.SymbolList.get ⟨0, by decide⟩).OldIndex = 0 ∧
    exSymTab.Old2NewIndex 1 < exSymTab.SymbolList.length :=
  ⟨(old2new_total_and_injective exSymTab (by decide) (by decide) (by decide)).2.1 0
      (by decide) (by decide),
    (old2new_total_and_injective exSymTab (by decide) (by decide) (by decide)).1 1 (by decide)⟩

/-- C4: the sort keys of the three record stores are exactly the
lexicographic pair orders the spec names: a < b iff (a.Section,
a.Offset) is lexicographically less than (b.Section, b.Offset) for
symbols and relocations, and (a.Section, a.Start) likewise for function
records; fields outside the key never influence the comparison. -/
theorem sort_keys_are_lex_pairs :
    (∀ a b : SARelocation,
      (SARelocation.ltB a b = true ↔ lexLt (a.Section, a.Offset) (b.Section, b.Offset)) ∧
      (∀ a2 b2 : SARelocation, a2.Section = a.Section → a2.Offset = a.Offset →
        b2.Section = b.Section → b2.Offset = b.Offset →
        SARelocation.ltB a2 b2 = SARelocation.ltB a b)) ∧
    (∀ a b : SFunctionRecord,
      (SFunctionRecord.ltB a b = true ↔ lexLt (a.Section, a.Start) (b.Section, b.Start)) ∧
      (∀ a2 b2 : SFunctionRecord, a2.Section = a.Section → a2.Start = a.Start →
        b2.Section = b.Section → b2.Start = b.Start →
        SFunctionRecord.ltB a2 b2 = SFunctionRecord.ltB a b)) ∧
    (∀ a b : SASymbol,
      (SASymbol.ltB a b = true ↔ lexLt (a.Section, a.Offset) (b.Section, b.Offset)) ∧
      (∀ a2 b2 : SASymbol, a2.Section = a.Section → a2.Offset = a.Offset →
        b2.Section = b.Section → b2.Offset = b.Offset →
        SASymbol.ltB a2 b2 = SASymbol.ltB a b)) := by
  refine ⟨fun a b => ⟨?_, ?_⟩, fun a b => ⟨?_, ?_⟩, fun a b => ⟨?_, ?_⟩⟩
  · simp [SARelocation.ltB, lexLt]
  · intro a2 b2 h1 h2 h3 h4; simp [SARelocation.ltB, h1, h2, h3, h4]
  · simp [SFunctionRecord.ltB, lexLt]
  · intro a2 b2 h1 h2 h3 h4; simp [SFunctionRecord.ltB, h1, h2, h3, h4]
  · simp [SASymbol.ltB, lexLt]
  · intro a2 b2 h1 h2 h3 h4; simp [SASymbol.ltB, h1, h2, h3, h4]

/-- Witness for C4 at concrete records: key (1,2) against key (1,3),
with arbitrary differing non-key fields. -/
theorem sort_keys_are_lex_pairs_witness :
    (SARelocation.ltB ⟨1, 2, 5, 6, 7, 8, 9⟩ ⟨1, 3, 0, 0, 0, 0, 0⟩ = true ↔
      lexLt (1, 2) (1, 3)) ∧
    SARelocation.ltB ⟨1, 2, 99, 98, 97, 96, 95⟩ ⟨1, 3, 11, 12, 13, 14, 15⟩ =
      SARelocation.ltB ⟨1, 2, 5, 6, 7, 8, 9⟩ ⟨1, 3, 0, 0, 0, 0, 0⟩ :=
  ⟨(sort_keys_are_lex_pairs.1 ⟨1, 2, 5, 6, 7, 8, 9⟩ ⟨1, 3, 0, 0, 0, 0, 0⟩).1,
    (sort_keys_are_lex_pairs.1 ⟨1, 2, 5, 6, 7, 8, 9⟩ ⟨1, 3, 0, 0, 0, 0, 0⟩).2
      ⟨1, 2, 99, 98, 97, 96, 95⟩ ⟨1, 3, 11, 12, 13, 14, 15⟩ rfl rfl rfl rfl⟩

/-- C5: after SATracer::Reset every register slot has kind 0 and reads
as unknown, and any slot read after a reset is independent of the tracer
state before the reset. -/
theorem tracer_reset_all_slots_unknown :
    ∀ (t : SATracer) (i : Fin 16),
      (SATracer.Reset t).Regist i = 0 ∧
      (SATracer.Reset t).readSlot i = SlotInfo.unknown ∧
      ∀ t2 : SATracer, (SATracer.Reset t2).readSlot i = (SATracer.Reset t).readSlot i := by
  intro t i
  refine ⟨rfl, ?_, fun t2 => ?_⟩ <;> simp [SATracer.Reset, SATracer.readSlot]

/-- C6: the pseudo-section encoding is exactly 0 = none/external,
-1 = absolute, -2 = flat group, -3 = assume-nothing, -4 = assume-error,
-16 = image-relative-unknown, and a value is accepted iff it is one of
these or greater than 0 (a defined section, segment or group); no other
negative value is accepted. -/
theorem pseudo_section_encoding :
    ASM_SEGMENT_UNKNOWN = 0 ∧ ASM_SEGMENT_ABSOLUTE = -1 ∧ ASM_SEGMENT_FLAT = -2 ∧
    ASM_SEGMENT_NOTHING = -3 ∧ ASM_SEGMENT_ERROR = -4 ∧ ASM_SEGMENT_IMGREL = -16 ∧
    (∀ v : Int, validSegmentValue v = true ↔
      (0 < v ∨ v = 0 ∨ v = -1 ∨ v = -2 ∨ v = -3 ∨ v = -4 ∨ v = -16)) ∧
    (∀ v : Int, v < 0 → (validSegmentValue v = true ↔
      (v = -1 ∨ v = -2 ∨ v = -3 ∨ v = -4 ∨ v = -16))) := by
  refine ⟨rfl, rfl, rfl, rfl, rfl, rfl, fun v => ?_, fun v hv => ?_⟩
  · simp [validSegmentValue, ASM_SEGMENT_UNKNOWN, ASM_SEGMENT_ABSOLUTE, ASM_SEGMENT_FLAT,
      ASM_SEGMENT_NOTHING, ASM_SEGMENT_ERROR, ASM_SEGMENT_IMGREL, or_assoc]
  · simp [validSegmentValue, ASM_SEGMENT_UNKNOWN, ASM_SEGMENT_ABSOLUTE, ASM_SEGMENT_FLAT,
      ASM_SEGMENT_NOTHING, ASM_SEGMENT_ERROR, ASM_SEGMENT_IMGREL, or_assoc]
    omega

/-- C10: element access on the containers is total: in range it returns
the record at the requested index or offset with no error; out of range
it reports the error and returns the record at index or offset 0. -/
theorem element_access_total {α : Type} [Inhabited α] (l : List α) (h0 : 0 < l.length)
    (i : Nat) (m : CMemoryBuffer) (off : Nat) :
    (∀ hi : i < l.length,
      CSList.opIndex l i = (l.get ⟨i, hi⟩, false) ∧
      CArrayBuf.opIndex l i = (l.get ⟨i, hi⟩, false)) ∧
    (l.length ≤ i →
      CSList.opIndex l i = (l.get ⟨0, h0⟩, true) ∧
      CArrayBuf.opIndex l i = (l.get ⟨0, h0⟩, true)) ∧
    (off < m.DataSize → m.Get off = (m.buffer off, false)) ∧
    (m.DataSize ≤ off → m.Get off = (m.buffer 0, true)) := by
  refine ⟨fun hi => ?_, fun hge => ?_, fun hlt => ?_, fun hge2 => ?_⟩
  · have hnot : ¬ i ≥ l.length := Nat.not_le.mpr hi
    constructor <;>
      simp [CSList.opIndex, CArrayBuf.opIndex, hnot, hi, List.getElem?_eq_getElem]
  · constructor <;>
      simp [CSList.opIndex, CArrayBuf.opIndex, hge, h0, List.getElem?_eq_getElem]
  · have hnot : ¬ off ≥ m.DataSize := Nat.not_le.mpr hlt
    simp [CMemoryBuffer.Get, hnot]
  · simp [CMemoryBuffer.Get, hge2]

/-- Witness for C10 at a concrete two-element list and buffer. -/
theorem element_access_total_witness :
    (CSList.opIndex [10, 20] 1 = ([10, 20].get ⟨1, by decide⟩, false) ∧
      CArrayBuf.opIndex [10, 20] 1 = ([10, 20].get ⟨1, by decide⟩, false)) ∧
    (CSList.opIndex [10, 20] 3 = ([10, 20].get ⟨0, by decide⟩, true) ∧
      CArrayBuf.opIndex [10, 20] 3 = ([10, 20].get ⟨0, by decide⟩, true)) ∧
    CMemoryBuffer.Get ⟨fun n => n + 100, 6⟩ 5 = (105, false) ∧
    CMemoryBuffer.Get ⟨fun n => n + 100, 6⟩ 9 = (100, true) := by
  have h1 := element_access_total (α := Nat) [10, 20] (by decide) 1 ⟨fun n => n + 100, 6⟩ 5
  have h2 := element_access_total (α := Nat) [10, 20] (by decide) 3 ⟨fun n => n + 100, 6⟩ 9
  exact ⟨h1.1 (by decide), h2.2.1 (by decide), h1.2.2.1 (by decide), h2.2.2.2 (by decide)⟩

/-- C7: the pass-2 emitter is deterministic over the analyzed state:
two runs over the same sections, symbols, relocations, function list
and dialect selection produce byte-identical output buffers, regardless
of the pass-1 scratch contents (tracer, per-instruction scratch, pass
counter). -/
theorem pass2_deterministic_on_analyzed_state :
    ∀ s t : AnalyzedState,
      s.Sections = t.Sections → s.Symbols = t.Symbols → s.Relocations = t.Relocations →
      s.FunctionList = t.FunctionList → s.Dialect = t.Dialect →
      (Pass2Run s).1 = (Pass2Run t).1 := by
  intro s t h1 h2 h3 h4 h5
  unfold Pass2Run
  rw [h1, h2, h3, h4, h5]

/-- Witness for C7: two analyzed states with identical tables and
dialect but different pass-1 scratch contents produce identical
output. -/
theorem pass2_deterministic_witness :
    (Pass2Run exState1).1 = (Pass2Run exState2).1 :=
  pass2_deterministic_on_analyzed_state exState1 exState2 rfl rfl rfl rfl rfl

/-- In-range element access through the checked operator[]. -/
lemma opIndex_fst_of_lt [Inhabited α] (l : List α) (i : Nat) (h : i < l.length) :
    (CSList.opIndex l i).1 = l.get ⟨i, h⟩ := by
  unfold CSList.opIndex
  rw [if_neg (by omega)]
  simp [h, List.getElem?_eq_getElem]

/-- The binary search loop returns an index inside the search
interval. -/
lemma findFirstAux_bounds [Inhabited α] (lt : α → α → Bool) (l : List α) (x : α) :
    ∀ (fuel a b : Nat), a ≤ b →
      a ≤ FindFirstAux lt l x fuel a b ∧ FindFirstAux lt l x fuel a b ≤ b := by
  intro fuel
  induction fuel with
  | zero => intro a b hab; exact ⟨Nat.le_refl a, hab⟩
  | succ f ih =>
    intro a b hab
    simp only [FindFirstAux]
    by_cases hlt : a < b
    · rw [if_pos hlt]
      by_cases hc : lt (CSList.opIndex l ((a + b) / 2)).1 x = true
      · rw [if_pos hc]
        have h2 := ih ((a + b) / 2 + 1) b (by omega)
        omega
      · rw [if_neg hc]
        have h2 := ih a ((a + b) / 2) (by omega)
        omega
    · rw [if_neg hlt]
      exact ⟨Nat.le_refl a, hab⟩

/-- Any fuel at least the size of the search interval gives the same
result: the while loop of FindFirst terminates. -/
lemma findFirstAux_fuel_irrel [Inhabited α] (lt : α → α → Bool) (l : List α) (x : α) :
    ∀ (f1 f2 a b : Nat), b - a ≤ f1 → b - a ≤ f2 →
      FindFirstAux lt l x f1 a b = FindFirstAux lt l x f2 a b := by
  intro f1
  induction f1 with
  | zero =>
    intro f2 a b h1 _
    have hab : ¬ a < b := by omega
    cases f2 with
    | zero => rfl
    | succ g => simp only [FindFirstAux]; rw [if_neg hab]
  | succ f ih =>
    intro f2 a b h1 h2
    by_cases hab : a < b
    · cases f2 with
      | zero => omega
      | succ g =>
        simp only [FindFirstAux]
        rw [if_pos hab, if_pos hab]
        by_cases hc : lt (CSList.opIndex l ((a + b) / 2)).1 x = true
        · rw [if_pos hc, if_pos hc]
          exact ih g ((a + b) / 2 + 1) b (by omega) (by omega)
        · rw [if_neg hc, if_neg hc]
          exact ih g a ((a + b) / 2) (by omega) (by omega)
    · cases f2 with
      | zero => simp only [FindFirstAux]; rw [if_neg hab]
      | succ g => simp only [FindFirstAux]; rw [if_neg hab, if_neg hab]

/-- Correctness of the binary search loop on a sorted list under a
negatively transitive comparison: the returned index splits the list
into records less than x and records not less than x. -/
lemma findFirstAux_spec [Inhabited α] (lt : α → α → Bool) (l : List α) (x : α)
    (hN : ∀ a b c, lt a b = false → lt b c = false → lt a c = false)
    (hs : ∀ i j, ∀ hi : i < l.length, ∀ hj : j < l.length, i < j →
      lt (l.get ⟨j, hj⟩) (l.get ⟨i, hi⟩) = false) :
    ∀ (fuel a b : Nat), a ≤ b → b ≤ l.length → b - a ≤ fuel →
      (∀ k, ∀ hk : k < l.length, k < a → lt (l.get ⟨k, hk⟩) x = true) →
      (∀ k, ∀ hk : k < l.length, b ≤ k → lt (l.get ⟨k, hk⟩) x = false) →
      (∀ k, ∀ hk : k < l.length, k < FindFirstAux lt l x fuel a b →
        lt (l.get ⟨k, hk⟩) x = true) ∧
      (∀ k, ∀ hk : k < l.length, FindFirstAux lt l x fuel a b ≤ k →
        lt (l.get ⟨k, hk⟩) x = false) := by
  intro fuel
  induction fuel with
  | zero =>
    intro a b hab hbl hfuel hA hB
    have hba : a = b := by omega
    subst hba
    exact ⟨hA, fun k hk hak => hB k hk hak⟩
  | succ f ih =>
    intro a b hab hbl hfuel hA hB
    simp only [FindFirstAux]
    by_cases hltab : a < b
    · rw [if_pos hltab]
      have hcl : (a + b) / 2 < l.length := by omega
      rw [opIndex_fst_of_lt l ((a + b) / 2) hcl]
      by_cases hc : lt (l.get ⟨(a + b) / 2, hcl⟩) x = true
      · rw [if_pos hc]
        refine ih ((a + b) / 2 + 1) b (by omega) hbl (by omega) ?_ hB
        intro k hk hka
        rcases Nat.lt_or_ge k ((a + b) / 2) with hkc | hkc
        · cases hkx : lt (l.get ⟨k, hk⟩) x with
          | true => rfl
          | false =>
            have hcc := hN (l.get ⟨(a + b) / 2, hcl⟩) (l.get ⟨k, hk⟩) x
              (hs k ((a + b) / 2) hk hcl hkc) hkx
            rw [hc] at hcc
            exact absurd hcc (by simp)
        · have hkeq : k = (a + b) / 2 := by omega
          subst hkeq
          exact hc
      · rw [if_neg hc]
        have hcfalse : lt (l.get ⟨(a + b) / 2, hcl⟩) x = false := by
          cases hx : lt (l.get ⟨(a + b) / 2, hcl⟩) x with
          | true => exact absurd hx hc
          | false => rfl
        refine ih a ((a + b) / 2) (by omega) (by omega) (by omega) hA ?_
        intro k hk hck
        rcases Nat.lt_or_ge k ((a + b) / 2 + 1) with hkc | hkc
        · have hkeq : k = (a + b) / 2 := by omega
          subst hkeq
          exact hcfalse
        · exact hN (l.get ⟨k, hk⟩) (l.get ⟨(a + b) / 2, hcl⟩) x
            (hs ((a + b) / 2) k hcl hk (by omega)) hcfalse
    · rw [if_neg hltab]
      exact ⟨hA, fun k hk hak => hB k hk (by omega)⟩

/-- C8 counterexample: with a comparison lacking negative transitivity,
a sorted two-record list [r0, r1] and a probe x with r1 < x but not
r0 < x makes FindFirst return NumEntries = 2, although index 0 already
holds a record not less than x, so 2 is not the least such index and
not every record is less than x.  The claim as stated, over every record
type and operator<, is therefore false. -/
theorem findfirst_claim_counterexample :
    ([0, 1] : List (Fin 3)).Pairwise (fun a b => cexLt b a = false) ∧
    CSList.FindFirst cexLt [0, 1] 2 = 2 ∧
    cexLt (([0, 1] : List (Fin 3)).get ⟨0, by decide⟩) 2 = false := by decide

/-- C8 (amended): FindFirst terminates on every list (any fuel at least
the interval size gives the same result) and returns an index between 0
and NumEntries; when additionally the comparison is negatively
transitive (as for a strict weak order) and the list is sorted
ascending, the result is the least index whose record is not less than
x, and equals NumEntries exactly when every record is less than x. -/
theorem findfirst_amended {α : Type} [Inhabited α] (lt : α → α → Bool) (l : List α) (x : α) :
    CSList.FindFirst lt l x ≤ l.length ∧
    (∀ f, l.length ≤ f → FindFirstAux lt l x f 0 l.length = CSList.FindFirst lt l x) ∧
    ((∀ a b c, lt a b = false → lt b c = false → lt a c = false) →
      l.Pairwise (fun a b => lt b a = false) →
      (∀ k, ∀ hk : k < l.length, k < CSList.FindFirst lt l x →
        lt (l.get ⟨k, hk⟩) x = true) ∧
      (∀ k, ∀ hk : k < l.length, CSList.FindFirst lt l x ≤ k →
        lt (l.get ⟨k, hk⟩) x = false)) := by
  refine ⟨(findFirstAux_bounds lt l x l.length 0 l.length (by omega)).2,
    fun f hf => findFirstAux_fuel_irrel lt l x f l.length 0 l.length (by omega) (by omega),
    fun hN hsorted => ?_⟩
  have hs : ∀ i j, ∀ hi : i < l.length, ∀ hj : j < l.length, i < j →
      lt (l.get ⟨j, hj⟩) (l.get ⟨i, hi⟩) = false := by
    have hpw := List.pairwise_iff_getElem.mp hsorted
    intro i j hi hj hij
    exact hpw i j hi hj hij
  exact findFirstAux_spec lt l x hN hs l.length 0 l.length (by omega) (by omega) (by omega)
    (fun k hk hk0 => absurd hk0 (by omega)) (fun k hk hlk => absurd hk (by omega))

/-- Witness for C8 (amended) with the strict order on Fin 3 and the
sorted list [0, 1, 2] probed at 1: the result index 1 is within bounds,
fuel independent, and splits the list at the first record not less than
1. -/
theorem findfirst_amended_witness :
    CSList.FindFirst f3lt [0, 1, 2] 1 ≤ ([0, 1, 2] : List (Fin 3)).length ∧
    FindFirstAux f3lt [0, 1, 2] 1 10 0 3 = CSList.FindFirst f3lt [0, 1, 2] 1 ∧
    f3lt (([0, 1, 2] : List (Fin 3)).get ⟨0, by decide⟩) 1 = true ∧
    f3lt (([0, 1, 2] : List (Fin 3)).get ⟨1, by decide⟩) 1 = false :=
  ⟨(findfirst_amended f3lt [0, 1, 2] 1).1,
    (findfirst_amended f3lt [0, 1, 2] 1).2.1 10 (by decide),
    ((findfirst_amended f3lt [0, 1, 2] 1).2.2 (by decide) (by decide)).1 0 (by decide)
      (by decide),
    ((findfirst_amended f3lt [0, 1, 2] 1).2.2 (by decide) (by decide)).2 1 (by decide)
      (by decide)⟩

/-- A member of a take-prefix is an element at an index below the cut. -/
lemma mem_take_idx {l : List α} {i : Nat} {y : α} (h : y ∈ l.take i) :
    ∃ k, ∃ hk : k < l.length, k < i ∧ l.get ⟨k, hk⟩ = y := by
  obtain ⟨k, hk, hget⟩ := List.mem_iff_getElem.mp h
  have hkl : k < l.length := by
    have := List.length_take i l
    omega
  have hki : k < i := by
    have := List.length_take i l
    omega
  refine ⟨k, hkl, hki, ?_⟩
  rw [← hget]
  simp [List.getElem_take]

/-- A member of a drop-suffix is an element at an index at or past the
cut. -/
lemma mem_drop_idx {l : List α} {i : Nat} {y : α} (h : y ∈ l.drop i) :
    ∃ k, ∃ hk : k < l.length, i ≤ k ∧ l.get ⟨k, hk⟩ = y := by
  obtain ⟨k, hk, hget⟩ := List.mem_iff_getElem.mp h
  have hlen := List.length_drop i l
  have hkl : i + k < l.length := by omega
  refine ⟨i + k, hkl, by omega, ?_⟩
  rw [← hget]
  simp [List.getElem_drop]

/-- Inserting x at position i of a sorted duplicate-free list, when
everything below i is less than x and x is less than everything from i
on, keeps the list sorted and duplicate-free, makes x the only record
equal to x, and places x at index i. -/
lemma pushunique_insert_props [Inhabited α] (lt : α → α → Bool) (l : List α) (x : α)
    (hA : ∀ a b, lt a b = true → lt b a = false)
    (hsorted : l.Pairwise fun a b => lt b a = false)
    (hdupfree : l.Pairwise fun a b => lt a b = true ∨ lt b a = true)
    (i : Nat) (hin : i ≤ l.length)
    (hlo : ∀ k, ∀ hk : k < l.length, k < i → lt (l.get ⟨k, hk⟩) x = true)
    (hhi : ∀ k, ∀ hk : k < l.length, i ≤ k → lt x (l.get ⟨k, hk⟩) = true) :
    ((l.take i ++ x :: l.drop i).Pairwise fun a b => lt b a = false) ∧
    ((l.take i ++ x :: l.drop i).Pairwise fun a b => lt a b = true ∨ lt b a = true) ∧
    (l.take i ++ x :: l.drop i).countP (fun y => !lt x y && !lt y x) = 1 ∧
    (∃ ht : i < (l.take i ++ x :: l.drop i).length,
      (l.take i ++ x :: l.drop i).get ⟨i, ht⟩ = x) := by
  have hirefl : lt x x = false := by
    cases hxx : lt x x with
    | false => rfl
    | true => have := hA x x hxx; rw [hxx] at this; exact absurd this (by simp)
  have hsIdx := List.pairwise_iff_getElem.mp hsorted
  have htakelen : (l.take i).length = i := by rw [List.length_take]; omega
  have htake_lt : ∀ y ∈ l.take i, lt y x = true := by
    intro y hy
    obtain ⟨k, hk, hki, hget⟩ := mem_take_idx hy
    rw [← hget]
    exact hlo k hk hki
  have hdrop_gt : ∀ y ∈ l.drop i, lt x y = true := by
    intro y hy
    obtain ⟨k, hk, hik, hget⟩ := mem_drop_idx hy
    rw [← hget]
    exact hhi k hk hik
  refine ⟨?_, ?_, ?_, ?_⟩
  · rw [List.pairwise_append]
    refine ⟨List.Pairwise.sublist (List.take_sublist i l) hsorted, ?_, ?_⟩
    · rw [List.pairwise_cons]
      exact ⟨fun y hy => hA x y (hdrop_gt y hy),
        List.Pairwise.sublist (List.drop_sublist i l) hsorted⟩
    · intro a ha b hb
      rcases List.mem_cons.mp hb with rfl | hb2
      · exact hA a b (htake_lt a ha)
      · obtain ⟨k, hk, hki, hget⟩ := mem_take_idx ha
        obtain ⟨k2, hk2, hik2, hget2⟩ := mem_drop_idx hb2
        rw [← hget, ← hget2]
        exact hsIdx k k2 hk hk2 (by omega)
  · rw [List.pairwise_append]
    refine ⟨List.Pairwise.sublist (List.take_sublist i l) hdupfree, ?_, ?_⟩
    · rw [List.pairwise_cons]
      exact ⟨fun y hy => Or.inl (hdrop_gt y hy),
        List.Pairwise.sublist (List.drop_sublist i l) hdupfree⟩
    · intro a ha b hb
      rcases List.mem_cons.mp hb with rfl | hb2
      · exact Or.inl (htake_lt a ha)
      · have hdIdx := List.pairwise_iff_getElem.mp hdupfree
        obtain ⟨k, hk, hki, hget⟩ := mem_take_idx ha
        obtain ⟨k2, hk2, hik2, hget2⟩ := mem_drop_idx hb2
        rw [← hget, ← hget2]
        exact hdIdx k k2 hk hk2 (by omega)
  · rw [List.countP_append, List.countP_cons]
    have h1 : (l.take i).countP (fun y => !lt x y && !lt y x) = 0 := by
      rw [List.countP_eq_zero]
      intro y hy
      simp [htake_lt y hy]
    have h2 : (l.drop i).countP (fun y => !lt x y && !lt y x) = 0 := by
      rw [List.countP_eq_zero]
      intro y hy
      simp [hdrop_gt y hy]
    rw [h1, h2]
    simp [hirefl]
  · have hlen2 : i < (l.take i ++ x :: l.drop i).length := by
      rw [List.length_append, htakelen]
      simp
    refine ⟨hlen2, ?_⟩
    have hg : (l.take i ++ x :: l.drop i)[i] = x := by
      rw [List.getElem_append_right (by omega : (l.take i).length ≤ i)]
      simp [htakelen]
    simpa using hg

/-- C9 counterexample: with a comparison lacking the strict-weak-order
laws, the sorted duplicate-free list [r0, r1] and a record x equal to r0
(neither less than the other) but with r1 < x: PushUnique inserts x at
the end, so the list changes although a record equal to x existed, and
afterwards it holds two records equal to x instead of exactly one.  The
claim as stated, over every record type and operator<, is therefore
false. -/
theorem pushunique_claim_counterexample :
    ([0, 1] : List (Fin 3)).Pairwise (fun a b => cexLt b a = false) ∧
    ([0, 1] : List (Fin 3)).Pairwise (fun a b => cexLt a b = true ∨ cexLt b a = true) ∧
    (cexLt 0 2 = false ∧ cexLt 2 0 = false ∧ (0 : Fin 3) ∈ ([0, 1] : List (Fin 3))) ∧
    (CSList.PushUnique cexLt [0, 1] 2).2 = [0, 1, 2] ∧
    (CSList.PushUnique cexLt [0, 1] 2).2.countP (fun y => !cexLt 2 y && !cexLt y 2) = 2 := by
  decide

/-- C9 (amended): when operator< is a strict weak order (asymmetric and
negatively transitive) and the list is sorted and duplicate-free before
the call, PushUnique leaves the list sorted and duplicate-free with
exactly one record equal to x, the returned value is the index of a
record equal to x, and when a record equal to x already existed the
list contents are unchanged. -/
theorem pushunique_amended {α : Type} [Inhabited α] (lt : α → α → Bool) (l : List α) (x : α)
    (hA : ∀ a b, lt a b = true → lt b a = false)
    (hN : ∀ a b c, lt a b = false → lt b c = false → lt a c = false)
    (hsorted : l.Pairwise fun a b => lt b a = false)
    (hdupfree : l.Pairwise fun a b => lt a b = true ∨ lt b a = true) :
    ((CSList.PushUnique lt l x).2.Pairwise fun a b => lt b a = false) ∧
    ((CSList.PushUnique lt l x).2.Pairwise fun a b => lt a b = true ∨ lt b a = true) ∧
    (CSList.PushUnique lt l x).2.countP (fun y => !lt x y && !lt y x) = 1 ∧
    (∃ hr : (CSList.PushUnique lt l x).1 < (CSList.PushUnique lt l x).2.length,
      lt x ((CSList.PushUnique lt l x).2.get ⟨(CSList.PushUnique lt l x).1, hr⟩) = false ∧
      lt ((CSList.PushUnique lt l x).2.get ⟨(CSList.PushUnique lt l x).1, hr⟩) x = false) ∧
    ((∃ y ∈ l, lt x y = false ∧ lt y x = false) → (CSList.PushUnique lt l x).2 = l) := by
  have hirefl : lt x x = false := by
    cases hxx : lt x x with
    | false => rfl
    | true => have := hA x x hxx; rw [hxx] at this; exact absurd this (by simp)
  have hsIdx := List.pairwise_iff_getElem.mp hsorted
  have hdIdx := List.pairwise_iff_getElem.mp hdupfree
  have hin : CSList.FindFirst lt l x ≤ l.length :=
    (findFirstAux_bounds lt l x l.length 0 l.length (by omega)).2
  have hspec := findFirstAux_spec lt l x hN (fun i j hi hj hij => hsIdx i j hi hj hij)
    l.length 0 l.length (by omega) (by omega) (by omega)
    (fun k hk h0 => absurd h0 (by omega)) (fun k hk hlk => absurd hk (by omega))
  obtain ⟨hAx, hBx⟩ := hspec
  have hFF : CSList.FindFirst lt l x = FindFirstAux lt l x l.length 0 l.length := rfl
  by_cases hilt : CSList.FindFirst lt l x < l.length
  · by_cases hxi : lt x (l.get ⟨CSList.FindFirst lt l x, hilt⟩) = true
    · -- x is strictly between its neighbours: insert
      have hpu : CSList.PushUnique lt l x =
          (CSList.FindFirst lt l x,
            l.take (CSList.FindFirst lt l x) ++ x :: l.drop (CSList.FindFirst lt l x)) := by
        simp only [CSList.PushUnique]
        rw [if_pos hilt, opIndex_fst_of_lt l _ hilt, if_pos hxi]
      have hhi : ∀ k, ∀ hk : k < l.length, CSList.FindFirst lt l x ≤ k →
          lt x (l.get ⟨k, hk⟩) = true := by
        intro k hk hik
        rcases Nat.eq_or_lt_of_le hik with rfl | hik2
        · exact hxi
        · cases hxk : lt x (l.get ⟨k, hk⟩) with
          | true => rfl
          | false =>
            have hlk : lt (l.get ⟨k, hk⟩) (l.get ⟨CSList.FindFirst lt l x, hilt⟩) = false :=
              hsIdx _ k hilt hk hik2
            have := hN x (l.get ⟨k, hk⟩) (l.get ⟨CSList.FindFirst lt l x, hilt⟩) hxk hlk
            rw [hxi] at this
            exact absurd this (by simp)
      have hprops := pushunique_insert_props lt l x hA hsorted hdupfree
        (CSList.FindFirst lt l x) hin hAx hhi
      rw [hpu]
      obtain ⟨hs1, hs2, hs3, ht, hteq⟩ := hprops
      refine ⟨hs1, hs2, hs3, ⟨ht, ?_, ?_⟩, ?_⟩
      · rw [hteq]; exact hirefl
      · rw [hteq]; exact hirefl
      · intro hex
        exfalso
        obtain ⟨y, hy, hxy, hyx⟩ := hex
        obtain ⟨k, hk, hget⟩ := List.mem_iff_getElem.mp hy
        rcases Nat.lt_or_ge k (CSList.FindFirst lt l x) with hki | hki
        · have := hAx k hk hki
          rw [List.get_eq_getElem, hget] at this
          rw [this] at hyx
          exact absurd hyx (by simp)
        · have := hhi k hk hki
          rw [List.get_eq_getElem, hget] at this
          rw [this] at hxy
          exact absurd hxy (by simp)
    · -- a record equal to x already exists at the found index
      have hxif : lt x (l.get ⟨CSList.FindFirst lt l x, hilt⟩) = false := by
        cases hxx : lt x (l.get ⟨CSList.FindFirst lt l x, hilt⟩) with
        | false => rfl
        | true => exact absurd hxx hxi
      have hfx : lt (l.get ⟨CSList.FindFirst lt l x, hilt⟩) x = false :=
        hBx _ hilt (Nat.le_refl _)
      have hpu : CSList.PushUnique lt l x = (CSList.FindFirst lt l x, l) := by
        simp only [CSList.PushUnique]
        rw [if_pos hilt, opIndex_fst_of_lt l _ hilt, if_neg hxi]
      have hafter : ∀ k, ∀ hk : k < l.length, CSList.FindFirst lt l x < k →
          lt x (l.get ⟨k, hk⟩) = true := by
        intro k hk hik
        cases hxk : lt x (l.get ⟨k, hk⟩) with
        | true => rfl
        | false =>
          have hfk : lt (l.get ⟨CSList.FindFirst lt l x, hilt⟩) (l.get ⟨k, hk⟩) = false :=
            hN _ x _ hfx hxk
          have hkf : lt (l.get ⟨k, hk⟩) (l.get ⟨CSList.FindFirst lt l x, hilt⟩) = false :=
            hsIdx _ k hilt hk hik
          rcases hdIdx _ k hilt hk hik with hd | hd
          · have hdg : lt (l.get ⟨CSList.FindFirst lt l x, hilt⟩) (l.get ⟨k, hk⟩) = true := hd
            rw [hfk] at hdg
            exact hdg
          · have hdg : lt (l.get ⟨k, hk⟩) (l.get ⟨CSList.FindFirst lt l x, hilt⟩) = true := hd
            rw [hkf] at hdg
            exact hdg
      rw [hpu]
      refine ⟨hsorted, hdupfree, ?_, ⟨hilt, hxif, hfx⟩, fun _ => rfl⟩
      conv => lhs; rw [← List.take_append_drop (CSList.FindFirst lt l x) l]
      rw [List.countP_append]
      have h1 : (l.take (CSList.FindFirst lt l x)).countP
          (fun y => !lt x y && !lt y x) = 0 := by
        rw [List.countP_eq_zero]
        intro y hy
        obtain ⟨k, hk, hki, hget⟩ := mem_take_idx hy
        have := hAx k hk hki
        rw [hget] at this
        simp [this]
      have hdropc : l.drop (CSList.FindFirst lt l x) =
          l.get ⟨CSList.FindFirst lt l x, hilt⟩ :: l.drop (CSList.FindFirst lt l x + 1) := by
        rw [List.get_eq_getElem]
        exact List.drop_eq_getElem_cons hilt
      rw [hdropc, List.countP_cons]
      have h2 : (l.drop (CSList.FindFirst lt l x + 1)).countP
          (fun y => !lt x y && !lt y x) = 0 := by
        rw [List.countP_eq_zero]
        intro y hy
        obtain ⟨k, hk, hki, hget⟩ := mem_drop_idx hy
        have := hafter k hk (by omega)
        rw [hget] at this
        simp [this]
      rw [h1, h2]
      have hxifg : lt x l[CSList.FindFirst lt l x] = false := hxif
      have hfxg : lt l[CSList.FindFirst lt l x] x = false := hfx
      simp [hxifg, hfxg]
  · -- x is greater than all records: append at the end
    have hieq : CSList.FindFirst lt l x = l.length := by omega
    have hpu : CSList.PushUnique lt l x =
        (CSList.FindFirst lt l x,
          l.take (CSList.FindFirst lt l x) ++ x :: l.drop (CSList.FindFirst lt l x)) := by
      simp only [CSList.PushUnique]
      rw [if_neg hilt]
    have hhi : ∀ k, ∀ hk : k < l.length, CSList.FindFirst lt l x ≤ k →
        lt x (l.get ⟨k, hk⟩) = true := by
      intro k hk hik
      omega
    have hprops := pushunique_insert_props lt l x hA hsorted hdupfree
      (CSList.FindFirst lt l x) hin hAx hhi
    rw [hpu]
    obtain ⟨hs1, hs2, hs3, ht, hteq⟩ := hprops
    refine ⟨hs1, hs2, hs3, ⟨ht, ?_, ?_⟩, ?_⟩
    · rw [hteq]; exact hirefl
    · rw [hteq]; exact hirefl
    · intro hex
      exfalso
      obtain ⟨y, hy, hxy, hyx⟩ := hex
      obtain ⟨k, hk, hget⟩ := List.mem_iff_getElem.mp hy
      have := hAx k hk (by omega)
      rw [List.get_eq_getElem, hget] at this
      rw [this] at hyx
      exact absurd hyx (by simp)

/-- Witness for C9 (amended) with the strict order on Fin 3: pushing 1
into the sorted duplicate-free list [0, 2]. -/
theorem pushunique_amended_witness :
    ((CSList.PushUnique f3lt [0, 2] 1).2.Pairwise fun a b => f3lt b a = false) ∧
    (CSList.PushUnique f3lt [0, 2] 1).2.countP (fun y => !f3lt 1 y && !f3lt y 1) = 1 := by
  have h := pushunique_amended f3lt ([0, 2] : List (Fin 3)) 1 (by decide) (by decide)
    (by decide) (by decide)
  exact ⟨h.1, h.2.2.1⟩

/-- One bounded bubble pass permutes the list. -/
lemma innerLoop_perm (lt : α → α → Bool) :
    ∀ (m : Nat) (l : List α), (innerLoop lt m l).Perm l := by
  intro m
  induction m with
  | zero => intro l; exact List.Perm.refl l
  | succ m ih =>
    intro l
    match l with
    | [] => simp [innerLoop]
    | [a] => simp [innerLoop]
    | a :: b :: rest =>
      simp only [innerLoop]
      by_cases h : lt b a = true
      · rw [if_pos h]
        exact ((ih (a :: rest)).cons b).trans (List.Perm.swap a b rest)
      · rw [if_neg h]
        exact (ih (b :: rest)).cons a

/-- One bounded bubble pass of m steps does not touch the elements
past position m. -/
lemma innerLoop_drop (lt : α → α → Bool) :
    ∀ (m : Nat) (l : List α), (innerLoop lt m l).drop (m + 1) = l.drop (m + 1) := by
  intro m
  induction m with
  | zero => intro l; rfl
  | succ m ih =>
    intro l
    match l with
    | [] => simp [innerLoop]
    | [a] => simp [innerLoop]
    | a :: b :: rest =>
      simp only [innerLoop]
      by_cases h : lt b a = true
      · rw [if_pos h]
        simp only [List.drop_succ_cons]
        rw [ih (a :: rest)]
        simp [List.drop_succ_cons]
      · rw [if_neg h]
        simp only [List.drop_succ_cons]
        rw [ih (b :: rest)]
        simp [List.drop_succ_cons]

/-- One bounded bubble pass of m steps permutes the first m+1
elements among themselves. -/
lemma innerLoop_take_perm (lt : α → α → Bool) :
    ∀ (m : Nat) (l : List α), ((innerLoop lt m l).take (m + 1)).Perm (l.take (m + 1)) := by
  intro m
  induction m with
  | zero => intro l; exact List.Perm.refl _
  | succ m ih =>
    intro l
    match l with
    | [] => simp [innerLoop]
    | [a] => simp [innerLoop]
    | a :: b :: rest =>
      simp only [innerLoop]
      by_cases h : lt b a = true
      · rw [if_pos h, List.take_succ_cons]
        have h1 := (ih (a :: rest)).cons b
        rw [List.take_succ_cons] at h1
        rw [List.take_succ_cons, List.take_succ_cons]
        exact h1.trans (List.Perm.swap a b (rest.take m))
      · rw [if_neg h, List.take_succ_cons]
        have h1 := (ih (b :: rest)).cons a
        rw [List.take_succ_cons] at h1
        rw [List.take_succ_cons, List.take_succ_cons]
        exact h1

/-- An element at an index below the cut belongs to the take-prefix. -/
lemma get_mem_take (l : List α) (j i : Nat) (hj : j < l.length) (hji : j < i) :
    l.get ⟨j, hj⟩ ∈ l.take i := by
  have hlt : j < (l.take i).length := by rw [List.length_take]; omega
  have hmem := List.getElem_mem hlt
  rw [List.getElem_take] at hmem
  simpa using hmem

/-- After one bounded bubble pass of m steps, the element arriving at
position m is not less-than-dominated by anything among the first m+1
elements: nothing there is greater than it. -/
lemma innerLoop_max [Inhabited α] (lt : α → α → Bool)
    (hA : ∀ a b, lt a b = true → lt b a = false)
    (hN : ∀ a b c, lt a b = false → lt b c = false → lt a c = false) :
    ∀ (m : Nat) (l : List α), m < l.length →
      ∀ y ∈ (innerLoop lt m l).take (m + 1),
        lt ((innerLoop lt m l).getD m default) y = false := by
  intro m
  induction m with
  | zero =>
    intro l hm y hy
    match l with
    | a :: t =>
      simp only [innerLoop, List.take_succ_cons, List.take_zero, List.getD_cons_zero] at hy ⊢
      rcases List.mem_singleton.mp hy with rfl
      cases haa : lt y y with
      | false => rfl
      | true => have := hA y y haa; rw [haa] at this; exact this
  | succ m ih =>
    intro l hm y hy
    match l, hm with
    | a :: b :: rest, hm =>
      have hm2 : m < (a :: rest).length := by
        simp only [List.length_cons] at hm ⊢
        omega
      have hm3 : m < (b :: rest).length := by
        simp only [List.length_cons] at hm ⊢
        omega
      simp only [innerLoop] at hy ⊢
      by_cases h : lt b a = true
      · rw [if_pos h] at hy ⊢
        rw [List.getD_cons_succ]
        rw [List.take_succ_cons] at hy
        rcases List.mem_cons.mp hy with rfl | hy2
        · have hab : lt a y = false := hA y a h
          have hamem : a ∈ (innerLoop lt m (a :: rest)).take (m + 1) := by
            have : a ∈ (a :: rest).take (m + 1) := by
              rw [List.take_succ_cons]; exact List.mem_cons_self a _
            exact ((innerLoop_take_perm lt m (a :: rest)).mem_iff).mpr this
          exact hN _ a y (ih (a :: rest) hm2 a hamem) hab
        · exact ih (a :: rest) hm2 y hy2
      · rw [if_neg h] at hy ⊢
        rw [List.getD_cons_succ]
        rw [List.take_succ_cons] at hy
        have hba : lt b a = false := by
          cases hq : lt b a with
          | false => rfl
          | true => exact absurd hq h
        rcases List.mem_cons.mp hy with rfl | hy2
        · have hbmem : b ∈ (innerLoop lt m (b :: rest)).take (m + 1) := by
            have : b ∈ (b :: rest).take (m + 1) := by
              rw [List.take_succ_cons]; exact List.mem_cons_self b _
            exact ((innerLoop_take_perm lt m (b :: rest)).mem_iff).mpr this
          exact hN _ b y (ih (b :: rest) hm3 b hbmem) hba
        · exact ih (b :: rest) hm3 y hy2

/-- One bounded bubble pass preserves any pairwise relation that holds
automatically for every swapped pair. -/
lemma innerLoop_pairwise (lt : α → α → Bool) (S : α → α → Prop)
    (hS : ∀ a b, lt b a = true → S b a) :
    ∀ (m : Nat) (l : List α), l.Pairwise S → (innerLoop lt m l).Pairwise S := by
  intro m
  induction m with
  | zero => intro l h; exact h
  | succ m ih =>
    intro l h
    match l with
    | [] => simp [innerLoop]
    | [a] => simp [innerLoop]
    | a :: b :: rest =>
      rw [List.pairwise_cons] at h
      obtain ⟨hab, htail⟩ := h
      rw [List.pairwise_cons] at htail
      obtain ⟨hb, hrest⟩ := htail
      simp only [innerLoop]
      by_cases hlt : lt b a = true
      · rw [if_pos hlt, List.pairwise_cons]
        constructor
        · intro y hy
          have hy2 : y ∈ a :: rest := (innerLoop_perm lt m (a :: rest)).subset hy
          rcases List.mem_cons.mp hy2 with rfl | hy3
          · exact hS y b hlt
          · exact hb y hy3
        · refine ih (a :: rest) ?_
          rw [List.pairwise_cons]
          exact ⟨fun y hy => hab y (List.mem_cons_of_mem b hy), hrest⟩
      · rw [if_neg hlt, List.pairwise_cons]
        constructor
        · intro y hy
          exact hab y ((innerLoop_perm lt m (b :: rest)).subset hy)
        · exact ih (b :: rest) (List.pairwise_cons.mpr ⟨hb, hrest⟩)

/-- The outer sort loop permutes the list. -/
lemma sortLoop_perm (lt : α → α → Bool) :
    ∀ (k : Nat) (l : List α), (sortLoop lt k l).Perm l := by
  intro k
  induction k with
  | zero => intro l; exact List.Perm.refl l
  | succ k ih =>
    intro l
    exact (ih (innerLoop lt k l)).trans (innerLoop_perm lt k l)

/-- The outer sort loop preserves any pairwise relation that holds
automatically for every swapped pair. -/
lemma sortLoop_pairwise (lt : α → α → Bool) (S : α → α → Prop)
    (hS : ∀ a b, lt b a = true → S b a) :
    ∀ (k : Nat) (l : List α), l.Pairwise S → (sortLoop lt k l).Pairwise S := by
  intro k
  induction k with
  | zero => intro l h; exact h
  | succ k ih =>
    intro l h
    exact ih (innerLoop lt k l) (innerLoop_pairwise lt S hS k l h)

/-- Main invariant of the bubble sort outer loop: if the suffix past
position k is sorted and dominates the first k elements, the loop with
counter k sorts the whole list. -/
lemma sortLoop_sorted [Inhabited α] (lt : α → α → Bool)
    (hA : ∀ a b, lt a b = true → lt b a = false)
    (hN : ∀ a b c, lt a b = false → lt b c = false → lt a c = false) :
    ∀ (k : Nat) (l : List α), k ≤ l.length →
      (∀ y ∈ l.take k, ∀ z ∈ l.drop k, lt z y = false) →
      (l.drop k).Pairwise (fun a b => lt b a = false) →
      (sortLoop lt k l).Pairwise (fun a b => lt b a = false) := by
  intro k
  induction k with
  | zero =>
    intro l _ _ hp
    simpa using hp
  | succ k ih =>
    intro l hkl hcross hp
    have hperm := innerLoop_perm lt k l
    have hlen : (innerLoop lt k l).length = l.length := hperm.length_eq
    have hkl2 : k < l.length := by omega
    have hkl3 : k < (innerLoop lt k l).length := by omega
    have hdropeq : (innerLoop lt k l).drop (k + 1) = l.drop (k + 1) := innerLoop_drop lt k l
    have htp : ((innerLoop lt k l).take (k + 1)).Perm (l.take (k + 1)) :=
      innerLoop_take_perm lt k l
    have hmax : ∀ y ∈ (innerLoop lt k l).take (k + 1),
        lt ((innerLoop lt k l).getD k default) y = false :=
      innerLoop_max lt hA hN k l hkl2
    have hMget : (innerLoop lt k l).getD k default = (innerLoop lt k l).get ⟨k, hkl3⟩ :=
      List.getD_eq_getElem _ _ hkl3
    have hMmem : (innerLoop lt k l).getD k default ∈ (innerLoop lt k l).take (k + 1) := by
      rw [hMget]
      exact get_mem_take _ k (k + 1) hkl3 (by omega)
    have hMmeml : (innerLoop lt k l).getD k default ∈ l.take (k + 1) := htp.subset hMmem
    have hdropk : (innerLoop lt k l).drop k =
        (innerLoop lt k l).getD k default :: l.drop (k + 1) := by
      rw [hMget, List.get_eq_getElem, ← hdropeq]
      exact List.drop_eq_getElem_cons hkl3
    refine ih (innerLoop lt k l) (by omega) ?_ ?_
    · intro y hy z hz
      have hy2 : y ∈ (innerLoop lt k l).take (k + 1) := by
        obtain ⟨j, hj, hji, hget⟩ := mem_take_idx hy
        rw [← hget]
        exact get_mem_take _ j (k + 1) hj (by omega)
      rw [hdropk] at hz
      rcases List.mem_cons.mp hz with rfl | hz2
      · exact hmax y hy2
      · exact hcross y (htp.subset hy2) z hz2
    · rw [hdropk, List.pairwise_cons]
      exact ⟨fun z hz => hcross _ hMmeml z hz, hp⟩

/-- The bounded bubble pass commutes with forgetting the attached
indices: the comparison only reads the first component. -/
lemma innerLoop_map_fst (lt : α → α → Bool) :
    ∀ (m : Nat) (pl : List (α × Nat)),
      (innerLoop (fun p q => lt p.1 q.1) m pl).map Prod.fst =
        innerLoop lt m (pl.map Prod.fst) := by
  intro m
  induction m with
  | zero => intro pl; rfl
  | succ m ih =>
    intro pl
    match pl with
    | [] => simp [innerLoop]
    | [p] => simp [innerLoop]
    | p :: q :: rest =>
      simp only [innerLoop, List.map_cons]
      by_cases h : lt q.1 p.1 = true
      · rw [if_pos h, if_pos h, List.map_cons, ih (p :: rest), List.map_cons]
      · rw [if_neg h, if_neg h, List.map_cons, ih (q :: rest), List.map_cons]

/-- The sort outer loop commutes with forgetting the attached
indices. -/
lemma sortLoop_map_fst (lt : α → α → Bool) :
    ∀ (k : Nat) (pl : List (α × Nat)),
      (sortLoop (fun p q => lt p.1 q.1) k pl).map Prod.fst =
        sortLoop lt k (pl.map Prod.fst) := by
  intro k
  induction k with
  | zero => intro pl; rfl
  | succ k ih =>
    intro pl
    simp only [sortLoop]
    rw [ih, innerLoop_map_fst]

/-- Forgetting the indices of an indexed list recovers the list. -/
lemma withIdx_map_fst : ∀ (l : List α) (n : Nat), (withIdx l n).map Prod.fst = l := by
  intro l
  induction l with
  | nil => intro n; rfl
  | cons a t ih => intro n; simp [withIdx, ih]

/-- An indexed list has the same length as the list. -/
lemma withIdx_length : ∀ (l : List α) (n : Nat), (withIdx l n).length = l.length := by
  intro l n
  rw [← withIdx_map_fst l n, List.length_map]
  rw [withIdx_map_fst]

/-- The indices attached by withIdx are strictly increasing along the
list. -/
lemma withIdx_pairwise_idx : ∀ (l : List α) (n : Nat),
    (withIdx l n).Pairwise (fun p q => p.2 < q.2) := by
  intro l
  induction l with
  | nil => intro n; simp [withIdx]
  | cons a t ih =>
    intro n
    simp only [withIdx]
    rw [List.pairwise_cons]
    refine ⟨?_, ih (n + 1)⟩
    intro q hq
    obtain ⟨k, hk, _, h2⟩ := withIdx_mem_elim hq
    simp only []
    omega

/-- C3: CSList::Sort, for a comparison that is a strict weak order
(asymmetric and negatively transitive), returns a permutation of the
list that is sorted ascending (no record is less than a record before
it), and the sort is stable: running the same algorithm on the records
paired with their original positions, records that are equal under the
order (neither less than the other) keep their original relative
order, and forgetting the positions gives exactly Sort of the original
list. -/
theorem csList_sort_sorted_perm_stable {α : Type} [Inhabited α] (lt : α → α → Bool)
    (hA : ∀ a b, lt a b = true → lt b a = false)
    (hN : ∀ a b c, lt a b = false → lt b c = false → lt a c = false)
    (l : List α) :
    (CSList.Sort lt l).Perm l ∧
    (CSList.Sort lt l).Pairwise (fun a b => lt b a = false) ∧
    (CSList.Sort (fun p q : α × Nat => lt p.1 q.1) (withIdx l 0)).map Prod.fst =
      CSList.Sort lt l ∧
    (CSList.Sort (fun p q : α × Nat => lt p.1 q.1) (withIdx l 0)).Pairwise
      (fun p q => (lt p.1 q.1 = false ∧ lt q.1 p.1 = false) → p.2 < q.2) := by
  refine ⟨sortLoop_perm lt l.length l, ?_, ?_, ?_⟩
  · refine sortLoop_sorted lt hA hN l.length l (Nat.le_refl _) ?_ ?_
    · intro y _ z hz
      rw [List.drop_length] at hz
      exact absurd hz (List.not_mem_nil z)
    · rw [List.drop_length]
      exact List.Pairwise.nil
  · unfold CSList.Sort
    rw [sortLoop_map_fst, withIdx_map_fst, withIdx_length]
  · refine sortLoop_pairwise _ _ ?_ _ _ ?_
    · intro p q hqp hc
      rw [hc.1] at hqp
      exact absurd hqp (by simp)
    · refine (withIdx_pairwise_idx l 0).imp ?_
      intro p q hpq _
      exact hpq

/-- Witness for C3 with the strict order on Fin 3 and the list
[2, 0, 1]. -/
theorem csList_sort_witness :
    (CSList.Sort f3lt [2, 0, 1]).Perm [2, 0, 1] ∧
    (CSList.Sort f3lt [2, 0, 1]).Pairwise (fun a b => f3lt b a = false) := by
  have h := csList_sort_sorted_perm_stable f3lt (by decide) (by decide) [2, 0, 1]
  exact ⟨h.1, h.2.1⟩

end Objconv
